import Mathlib

/-!
Verification of the traffic/flow-analysis core of the scooter-sharing
analysis repository (src/utils/features.py) against its specification.

Modelling conventions used throughout:
* timestamps are integer hours since an arbitrary epoch (`Int`);
* point identifiers are naturals (`Nat`);
* trip counts are naturals, cast to `Int` where signed arithmetic
  (net balances) is needed;
* the float-valued flow ratio is modelled as a rational number `ℚ`;
* a pandas DataFrame is modelled as a list of rows (long format) or as a
  structure of row labels, column labels and a total cell function
  (wide format); a missing cell (NaN) is `Option.none`;
* pandas `groupby` enumerates distinct keys in ascending order, and
  `sort_values` on several columns is a stable lexicographic sort; both
  are modelled with `List.insertionSort` (stable) over explicit
  lexicographic orders.
-/

namespace Scooter

/-! ### Generic list lemmas -/

/-- Two lists that are permutations of each other and both strictly
increasing along the same asymmetric comparison are equal. -/
theorem eq_of_perm_of_pairwise_strict {α : Type} {lt : α → α → Prop}
    (hasymm : ∀ a b, lt a b → lt b a → False) :
    ∀ l1 l2 : List α, l1.Perm l2 → l1.Pairwise lt → l2.Pairwise lt → l1 = l2 := by
  intro l1
  induction l1 with
  | nil =>
    intro l2 hp _ _
    exact (hp.symm.eq_nil).symm
  | cons a t ih =>
    intro l2 hp h1 h2
    cases l2 with
    | nil => exact hp.eq_nil
    | cons b t2 =>
      have hab : a = b := by
        by_contra hne
        have hat2 : a ∈ t2 := by
          have ha2 : a ∈ b :: t2 := hp.mem_iff.mp (List.mem_cons_self a t)
          rcases List.mem_cons.mp ha2 with h | h
          · exact absurd h hne
          · exact h
        have hbt : b ∈ t := by
          have hb1 : b ∈ a :: t := hp.symm.mem_iff.mp (List.mem_cons_self b t2)
          rcases List.mem_cons.mp hb1 with h | h
          · exact absurd h.symm hne
          · exact h
        have hlt1 : lt a b := (List.pairwise_cons.mp h1).1 b hbt
        have hlt2 : lt b a := (List.pairwise_cons.mp h2).1 a hat2
        exact hasymm a b hlt1 hlt2
      subst hab
      have htail : t.Perm t2 := hp.cons_inv
      rw [ih t2 htail (List.pairwise_cons.mp h1).2 (List.pairwise_cons.mp h2).2]

/-- A list pairwise-sorted along a key whose images are all distinct is
pairwise strictly sorted along that key. -/
theorem pairwise_strict_of_sorted_nodup {α κ : Type} (key : α → κ)
    (le lt : κ → κ → Prop) (hlt : ∀ x y, le x y → x ≠ y → lt x y)
    (l : List α) (hs : l.Pairwise (fun a b => le (key a) (key b)))
    (hnd : (l.map key).Nodup) :
    l.Pairwise (fun a b => lt (key a) (key b)) := by
  have hne : l.Pairwise (fun a b => key a ≠ key b) := List.pairwise_map.mp hnd
  exact (hs.and hne).imp (fun h => hlt _ _ h.1 h.2)

theorem sum_map_add {κ : Type} (ts : List κ) (f g : κ → ℕ) :
    (ts.map (fun t => f t + g t)).sum = (ts.map f).sum + (ts.map g).sum := by
  induction ts with
  | nil => simp
  | cons t ts ih => simp [ih]; omega

theorem sum_map_sub_int {κ : Type} (ts : List κ) (f g : κ → ℤ) :
    (ts.map (fun t => f t - g t)).sum = (ts.map f).sum - (ts.map g).sum := by
  induction ts with
  | nil => simp
  | cons t ts ih => simp [ih]; ring

theorem sum_map_natCast {κ : Type} (ts : List κ) (f : κ → ℕ) :
    (ts.map (fun t => ((f t : ℕ) : ℤ))).sum = (((ts.map f).sum : ℕ) : ℤ) := by
  induction ts with
  | nil => simp
  | cons t ts ih => simp [ih]

theorem sum_map_ite_zero {κ : Type} [DecidableEq κ] (ts : List κ) (c : κ)
    (hc : c ∉ ts) :
    (ts.map (fun t => if c = t then (1 : ℕ) else 0)).sum = 0 := by
  induction ts with
  | nil => simp
  | cons t ts ih =>
    have h1 : c ≠ t := fun h => hc (h ▸ List.mem_cons_self t ts)
    have h2 : c ∉ ts := fun h => hc (List.mem_cons_of_mem t h)
    simp [h1, ih h2]

theorem sum_map_ite_one {κ : Type} [DecidableEq κ] (ts : List κ) (c : κ)
    (hnd : ts.Nodup) (hc : c ∈ ts) :
    (ts.map (fun t => if c = t then (1 : ℕ) else 0)).sum = 1 := by
  induction ts with
  | nil => cases hc
  | cons t ts ih =>
    rcases List.mem_cons.mp hc with h | h
    · subst h
      have : c ∉ ts := (List.nodup_cons.mp hnd).1
      simp [sum_map_ite_zero ts c this]
    · have hct : c ≠ t := by
        rintro rfl
        exact (List.nodup_cons.mp hnd).1 h
      simp [hct, ih (List.nodup_cons.mp hnd).2 h]

/-- Splitting a count along the distinct values of a key: summing, over a
duplicate-free list of keys covering all rows satisfying `p`, the number of
rows satisfying `p` with that key, gives the number of rows satisfying `p`. -/
theorem sum_fiber_counts {α κ : Type} [DecidableEq κ] (f : α → κ) (p : α → Bool)
    (ts : List κ) (hnd : ts.Nodup) :
    ∀ L : List α, (∀ r ∈ L, p r = true → f r ∈ ts) →
      (ts.map (fun t => L.countP (fun r => p r && decide (f r = t)))).sum
        = L.countP p := by
  intro L
  induction L with
  | nil => simp
  | cons r L ih =>
    intro hcov
    have hcov' : ∀ x ∈ L, p x = true → f x ∈ ts :=
      fun x hx => hcov x (List.mem_cons_of_mem r hx)
    have hterm : ∀ t : κ, (r :: L).countP (fun x => p x && decide (f x = t))
        = L.countP (fun x => p x && decide (f x = t))
          + (if p r = true then (if f r = t then 1 else 0) else 0) := by
      intro t
      rw [List.countP_cons]
      by_cases hp : p r = true
      · by_cases hf : f r = t <;> simp [hp, hf]
      · simp [hp]
    simp only [hterm]
    rw [sum_map_add, ih hcov', List.countP_cons]
    by_cases hp : p r = true
    · have hmem : f r ∈ ts := hcov r (List.mem_cons_self r L) hp
      have : (ts.map (fun t => if p r = true then (if f r = t then 1 else 0) else 0)).sum
          = (ts.map (fun t => if f r = t then (1 : ℕ) else 0)).sum := by
        congr 1
        exact List.map_congr_left (fun t _ => by simp [hp])
      rw [this]
      have heq : (ts.map (fun t => if f r = t then (1 : ℕ) else 0)).sum = 1 := by
        have := sum_map_ite_one ts (f r) hnd hmem
        simpa [eq_comm] using this
      simp [heq, hp]
    · have : (ts.map (fun t => if p r = true then (if f r = t then 1 else 0) else 0)).sum
          = (ts.map (fun _ => (0 : ℕ))).sum := by
        congr 1
        exact List.map_congr_left (fun t _ => by simp [hp])
      simp [this, hp]

/-- Summing, over a duplicate-free list of keys, the number of rows carrying
that key counts exactly the rows whose key lies in the list. -/
theorem sum_countP_keys {α κ : Type} [DecidableEq κ] (f : α → κ) (P : α → Bool)
    (ts : List κ) (hnd : ts.Nodup) :
    ∀ L : List α, (∀ r ∈ L, (P r = true ↔ f r ∈ ts)) →
      (ts.map (fun t => L.countP (fun r => decide (f r = t)))).sum = L.countP P := by
  intro L
  induction L with
  | nil => simp
  | cons r L ih =>
    intro hcov
    have hcov' : ∀ x ∈ L, (P x = true ↔ f x ∈ ts) :=
      fun x hx => hcov x (List.mem_cons_of_mem r hx)
    have hterm : ∀ t : κ, (r :: L).countP (fun x => decide (f x = t))
        = L.countP (fun x => decide (f x = t)) + (if f r = t then 1 else 0) := by
      intro t
      rw [List.countP_cons]
      by_cases hf : f r = t <;> simp [hf]
    simp only [hterm]
    rw [sum_map_add, ih hcov', List.countP_cons]
    by_cases hp : P r = true
    · have hmem : f r ∈ ts := (hcov r (List.mem_cons_self r L)).mp hp
      have heq : (ts.map (fun t => if f r = t then (1 : ℕ) else 0)).sum = 1 := by
        have := sum_map_ite_one ts (f r) hnd hmem
        simpa [eq_comm] using this
      simp [heq, hp]
    · have hmem : f r ∉ ts := fun h => hp ((hcov r (List.mem_cons_self r L)).mpr h)
      have heq : (ts.map (fun t => if f r = t then (1 : ℕ) else 0)).sum = 0 := by
        have := sum_map_ite_zero ts (f r) hmem
        simpa [eq_comm] using this
      simp [heq, hp]

/-! ### Lexicographic orders used by pandas sort_values / groupby -/

/-- Lexicographic order on (point, operating day) groupby keys. -/
def key2Le (a b : ℕ × ℤ) : Prop := a.1 < b.1 ∨ (a.1 = b.1 ∧ a.2 ≤ b.2)

/-- Strict lexicographic order on (point, operating day) keys. -/
def key2Lt (a b : ℕ × ℤ) : Prop := a.1 < b.1 ∨ (a.1 = b.1 ∧ a.2 < b.2)

instance : DecidableRel key2Le := fun a b => by unfold key2Le; exact inferInstance

instance : IsTotal (ℕ × ℤ) key2Le := ⟨fun a b => by unfold key2Le; omega⟩

instance : IsTrans (ℕ × ℤ) key2Le := ⟨fun a b c => by unfold key2Le; omega⟩

theorem key2Lt_of_le_ne (x y : ℕ × ℤ) (hle : key2Le x y) (hne : x ≠ y) :
    key2Lt x y := by
  rcases x with ⟨x1, x2⟩
  rcases y with ⟨y1, y2⟩
  have : ¬(x1 = y1 ∧ x2 = y2) := by
    intro ⟨h1, h2⟩
    exact hne (by simp [h1, h2])
  unfold key2Le at hle
  unfold key2Lt
  simp only at hle ⊢
  omega

theorem key2Lt_asymm (a b : ℕ × ℤ) (h1 : key2Lt a b) (h2 : key2Lt b a) : False := by
  unfold key2Lt at h1 h2
  omega

/-- Lexicographic order on (origin, destination) groupby keys. -/
def pairLe (a b : ℕ × ℕ) : Prop := a.1 < b.1 ∨ (a.1 = b.1 ∧ a.2 ≤ b.2)

/-- Strict lexicographic order on (origin, destination) keys. -/
def pairLt (a b : ℕ × ℕ) : Prop := a.1 < b.1 ∨ (a.1 = b.1 ∧ a.2 < b.2)

instance : DecidableRel pairLe := fun a b => by unfold pairLe; exact inferInstance

instance : IsTotal (ℕ × ℕ) pairLe := ⟨fun a b => by unfold pairLe; omega⟩

instance : IsTrans (ℕ × ℕ) pairLe := ⟨fun a b c => by unfold pairLe; omega⟩

/-- Lexicographic order on (period, origin, destination) groupby keys. -/
def odKeyLe (a b : ℤ × ℕ × ℕ) : Prop :=
  a.1 < b.1 ∨ (a.1 = b.1 ∧ (a.2.1 < b.2.1 ∨ (a.2.1 = b.2.1 ∧ a.2.2 ≤ b.2.2)))

instance : DecidableRel odKeyLe := fun a b => by unfold odKeyLe; exact inferInstance

instance : IsTotal (ℤ × ℕ × ℕ) odKeyLe := ⟨fun a b => by unfold odKeyLe; omega⟩

instance : IsTrans (ℤ × ℕ × ℕ) odKeyLe := ⟨fun a b c => by unfold odKeyLe; omega⟩

/-- One row of the trip table: columns `start_date`, `end_date`,
`start_location`, `end_location`. -/
structure Trip where
  start_date : Int
  end_date : Int
  start_location : Nat
  end_location : Nat
deriving DecidableEq, Repr

/-! ### Traffic Aggregator (features.py 171-275) -/

/-- Resampling bucket of a timestamp: the index of the fixed-width window of
`per` hours containing it (pandas labels a bucket by its start time; the
integer index is an equivalent labelling of the same buckets). -/
def bucket (per t : ℤ) : ℤ := t.fdiv per

/-- The row range `resample` produces for one groupby group: every bucket
from the group's first to its last, inclusive (an empty intermediate bucket
gets a row with size 0). -/
def bucketRange (per : ℤ) (ts : List ℤ) : List ℤ :=
  match ts.map (bucket per) with
  | [] => []
  | b :: bs =>
    (List.range (bs.foldl max b - bs.foldl min b + 1).toNat).map
      (fun (i : ℕ) => bs.foldl min b + (i : ℤ))

theorem foldl_min_le (bs : List ℤ) :
    ∀ b x : ℤ, (x = b ∨ x ∈ bs) → bs.foldl min b ≤ x := by
  induction bs with
  | nil =>
    intro b x hx
    rcases hx with rfl | h
    · exact le_refl x
    · cases h
  | cons c cs ih =>
    intro b x hx
    rw [List.foldl_cons]
    have hbase : cs.foldl min (min b c) ≤ min b c := ih (min b c) (min b c) (Or.inl rfl)
    rcases hx with rfl | h
    · exact le_trans hbase (min_le_left x c)
    · rcases List.mem_cons.mp h with rfl | h2
      · exact le_trans hbase (min_le_right b x)
      · exact ih (min b c) x (Or.inr h2)

theorem le_foldl_max (bs : List ℤ) :
    ∀ b x : ℤ, (x = b ∨ x ∈ bs) → x ≤ bs.foldl max b := by
  induction bs with
  | nil =>
    intro b x hx
    rcases hx with rfl | h
    · exact le_refl x
    · cases h
  | cons c cs ih =>
    intro b x hx
    rw [List.foldl_cons]
    have hbase : max b c ≤ cs.foldl max (max b c) := ih (max b c) (max b c) (Or.inl rfl)
    rcases hx with rfl | h
    · exact le_trans (le_max_left x c) hbase
    · rcases List.mem_cons.mp h with rfl | h2
      · exact le_trans (le_max_right b x) hbase
      · exact ih (max b c) x (Or.inr h2)

/-- Every timestamp of a group falls in a bucket of the group's range. -/
theorem mem_bucketRange (per : ℤ) (ts : List ℤ) (t : ℤ) (ht : t ∈ ts) :
    bucket per t ∈ bucketRange per ts := by
  unfold bucketRange
  cases hm : ts.map (bucket per) with
  | nil =>
    rw [List.map_eq_nil] at hm
    subst hm
    cases ht
  | cons b bs =>
    have hbt : bucket per t ∈ b :: bs := by
      rw [← hm]
      exact List.mem_map_of_mem (bucket per) ht
    have hor : bucket per t = b ∨ bucket per t ∈ bs := List.mem_cons.mp hbt
    have hlo : bs.foldl min b ≤ bucket per t := foldl_min_le bs b (bucket per t) hor
    have hhi : bucket per t ≤ bs.foldl max b := le_foldl_max bs b (bucket per t) hor
    have h1 : (bucket per t - bs.foldl min b).toNat
        < (bs.foldl max b - bs.foldl min b + 1).toNat := by omega
    have h2 : bs.foldl min b + (((bucket per t - bs.foldl min b).toNat : ℕ) : ℤ)
        = bucket per t := by omega
    simp only [List.mem_map, List.mem_range]
    exact ⟨(bucket per t - bs.foldl min b).toNat, h1, h2⟩

/-- The wide Point Time Series frame `_create_traffic_df` returns: the sorted
row index (time buckets), the sorted column index (points), and a total cell
function (after `fillna(0)` every cell holds a number, never NaN). -/
structure TrafficDF where
  times : List ℤ
  points : List ℕ
  cell : ℤ → ℕ → ℤ

/-- Translation of `_create_traffic_df` (features.py 171-215): group the
(date, point) rows by point, resample each group over its own bucket range
counting rows per bucket, unstack so each point becomes a column (row index
= the sorted union of the group ranges, groupby/unstack sort their labels),
and fill every cell a group's range does not reach with 0. -/
def _create_traffic_df (data : List Trip) (date : Trip → ℤ) (point : Trip → ℕ)
    (per : ℤ) : TrafficDF :=
  let pts := List.insertionSort (· ≤ ·) (data.map point).dedup
  let times := List.insertionSort (· ≤ ·)
    ((pts.map (fun p =>
      bucketRange per ((data.filter (fun r => decide (point r = p))).map date))).join).dedup
  { times := times
    points := pts
    cell := fun t p =>
      if t ∈ bucketRange per ((data.filter (fun r => decide (point r = p))).map date)
      then ((data.filter (fun r =>
        decide (point r = p) && decide (bucket per (date r) = t))).length : ℤ)
      else 0 }

/-- Translation of `create_departures_df` (features.py 218-245). -/
def create_departures_df (data : List Trip) (per : ℤ) : TrafficDF :=
  _create_traffic_df data Trip.start_date Trip.start_location per

/-- Translation of `create_arrivals_df` (features.py 248-275). -/
def create_arrivals_df (data : List Trip) (per : ℤ) : TrafficDF :=
  _create_traffic_df data Trip.end_date Trip.end_location per

/-- Every cell of the traffic frame equals the raw number of rows at that
point in that bucket: inside the group's range that is what `size` counted,
outside it the 0 filled in by `fillna` (there are no such rows there). -/
theorem cell_eq_count (data : List Trip) (date : Trip → ℤ) (point : Trip → ℕ)
    (per t : ℤ) (p : ℕ) :
    (_create_traffic_df data date point per).cell t p
      = ((data.filter (fun r =>
          decide (point r = p) && decide (bucket per (date r) = t))).length : ℤ) := by
  unfold _create_traffic_df
  simp only
  split_ifs with h
  · rfl
  · have hnil : data.filter (fun r =>
        decide (point r = p) && decide (bucket per (date r) = t)) = [] := by
      rw [List.filter_eq_nil]
      intro r hr hmix
      have hp : point r = p := by
        have := (Bool.and_eq_true _ _).mp hmix
        exact of_decide_eq_true this.1
      have hb : bucket per (date r) = t := by
        have := (Bool.and_eq_true _ _).mp hmix
        exact of_decide_eq_true this.2
      have hdr : date r ∈ (data.filter (fun x => decide (point x = p))).map date :=
        List.mem_map_of_mem date (List.mem_filter.mpr ⟨hr, by simp [hp]⟩)
      exact h (hb ▸ mem_bucketRange per _ (date r) hdr)
    rw [hnil]
    simp

/-- A point is a column of the traffic frame exactly when it occurs in the
input. -/
theorem mem_points_iff (data : List Trip) (date : Trip → ℤ) (point : Trip → ℕ)
    (per : ℤ) (p : ℕ) :
    p ∈ (_create_traffic_df data date point per).points
      ↔ ∃ r ∈ data, point r = p := by
  unfold _create_traffic_df
  simp only
  rw [List.mem_insertionSort, List.mem_dedup, List.mem_map]

/-- Every bucket of a present point's own range is a row of the frame. -/
theorem bucketRange_subset_times (data : List Trip) (date : Trip → ℤ)
    (point : Trip → ℕ) (per : ℤ) (p : ℕ) (hp : ∃ r ∈ data, point r = p) (b : ℤ)
    (hb : b ∈ bucketRange per ((data.filter (fun r => decide (point r = p))).map date)) :
    b ∈ (_create_traffic_df data date point per).times := by
  have hpts : p ∈ (_create_traffic_df data date point per).points :=
    (mem_points_iff data date point per p).mpr hp
  unfold _create_traffic_df at hpts ⊢
  simp only at hpts ⊢
  rw [List.mem_insertionSort, List.mem_dedup]
  exact List.mem_join.mpr
    ⟨bucketRange per ((data.filter (fun r => decide (point r = p))).map date),
      List.mem_map_of_mem _ hpts, hb⟩

/-- Every row of the input lands in a row of the frame: its bucket label is
in the row index. -/
theorem bucket_mem_times (data : List Trip) (date : Trip → ℤ) (point : Trip → ℕ)
    (per : ℤ) (r : Trip) (hr : r ∈ data) :
    bucket per (date r) ∈ (_create_traffic_df data date point per).times := by
  refine bucketRange_subset_times data date point per (point r) ⟨r, hr, rfl⟩ _ ?_
  exact mem_bucketRange per _ (date r)
    (List.mem_map_of_mem date (List.mem_filter.mpr ⟨hr, by simp⟩))

theorem times_nodup (data : List Trip) (date : Trip → ℤ) (point : Trip → ℕ)
    (per : ℤ) : (_create_traffic_df data date point per).times.Nodup := by
  unfold _create_traffic_df
  simp only
  exact (List.perm_insertionSort _ _).symm.nodup (List.nodup_dedup _)

theorem points_nodup (data : List Trip) (date : Trip → ℤ) (point : Trip → ℕ)
    (per : ℤ) : (_create_traffic_df data date point per).points.Nodup := by
  unfold _create_traffic_df
  simp only
  exact (List.perm_insertionSort _ _).symm.nodup (List.nodup_dedup _)

/-! ### Flow Reconciler (features.py 278-331) -/

/-- One row of the long-format net balance table `net_long`, columns
time, point, net_balance. -/
structure NetRecord where
  time : ℤ
  point : ℕ
  net_balance : ℤ
deriving DecidableEq, Repr

/-- A wide frame after aligning two traffic frames: cells can be missing
(NaN), so the cell function is partial via `Option`. -/
structure AlignedDF where
  times : List ℤ
  points : List ℕ
  cell : ℤ → ℕ → Option ℤ

/-- `arrivals.subtract(departures, fill_value=0)`: align on the sorted union
of the row and column labels; a label pair inside only one frame's grid gets
0 for the missing side; a pair inside neither grid stays missing (NaN). -/
def subtractFill (a d : TrafficDF) : AlignedDF :=
  { times := List.insertionSort (· ≤ ·) (a.times ++ d.times).dedup
    points := List.insertionSort (· ≤ ·) (a.points ++ d.points).dedup
    cell := fun t p =>
      if t ∈ a.times ∧ p ∈ a.points then
        some (a.cell t p - (if t ∈ d.times ∧ p ∈ d.points then d.cell t p else 0))
      else if t ∈ d.times ∧ p ∈ d.points then
        some (0 - d.cell t p)
      else none }

/-- `departures.add(arrivals, fill_value=0)`: same alignment, with `+`. -/
def addFill (d a : TrafficDF) : AlignedDF :=
  { times := List.insertionSort (· ≤ ·) (d.times ++ a.times).dedup
    points := List.insertionSort (· ≤ ·) (d.points ++ a.points).dedup
    cell := fun t p =>
      if t ∈ d.times ∧ p ∈ d.points then
        some (d.cell t p + (if t ∈ a.times ∧ p ∈ a.points then a.cell t p else 0))
      else if t ∈ a.times ∧ p ∈ a.points then
        some (0 + a.cell t p)
      else none }

/-- `net_flow.stack().reset_index()` with columns renamed to
time, point, net_balance: one long row per non-missing cell, time as the
outer (slow) label and point as the inner one; missing cells are dropped. -/
def stackDF (m : AlignedDF) : List NetRecord :=
  (m.times.map (fun t =>
    m.points.filterMap (fun p => (m.cell t p).map (fun v => NetRecord.mk t p v)))).flatten

/-- Translation of `traffic_by_points` (features.py 278-331): departures and
arrivals per point and bucket, net balance = arrivals − departures in long
format, total traffic = departures + arrivals. -/
def traffic_by_points (data : List Trip) (per : ℤ) : AlignedDF × List NetRecord :=
  let departures := create_departures_df data per
  let arrivals := create_arrivals_df data per
  let net_flow := subtractFill arrivals departures
  let net_long := stackDF net_flow
  let total_traffic := addFill departures arrivals
  (total_traffic, net_long)

theorem traffic_by_points_net (data : List Trip) (per : ℤ) :
    (traffic_by_points data per).2
      = stackDF (subtractFill (create_arrivals_df data per)
          (create_departures_df data per)) := rfl

theorem subtractFill_times_left (a d : TrafficDF) (t : ℤ) (ht : t ∈ a.times) :
    t ∈ (subtractFill a d).times := by
  unfold subtractFill
  simp only
  rw [List.mem_insertionSort, List.mem_dedup]
  exact List.mem_append.mpr (Or.inl ht)

theorem subtractFill_times_right (a d : TrafficDF) (t : ℤ) (ht : t ∈ d.times) :
    t ∈ (subtractFill a d).times := by
  unfold subtractFill
  simp only
  rw [List.mem_insertionSort, List.mem_dedup]
  exact List.mem_append.mpr (Or.inr ht)

theorem subtractFill_times_nodup (a d : TrafficDF) :
    (subtractFill a d).times.Nodup := by
  unfold subtractFill
  simp only
  exact (List.perm_insertionSort _ _).symm.nodup (List.nodup_dedup _)

theorem subtractFill_points_nodup (a d : TrafficDF) :
    (subtractFill a d).points.Nodup := by
  unfold subtractFill
  simp only
  exact (List.perm_insertionSort _ _).symm.nodup (List.nodup_dedup _)

theorem mem_subtractFill_points (a d : TrafficDF) (p : ℕ) :
    p ∈ (subtractFill a d).points ↔ p ∈ a.points ∨ p ∈ d.points := by
  unfold subtractFill
  simp only
  rw [List.mem_insertionSort, List.mem_dedup, List.mem_append]

/-- Raw arrivals at point `p` in bucket `t`, counted directly from the trip
rows. -/
def arrCnt (data : List Trip) (per t : ℤ) (p : ℕ) : ℕ :=
  data.countP (fun r => decide (r.end_location = p) && decide (bucket per r.end_date = t))

/-- Raw departures from point `p` in bucket `t`, counted directly from the
trip rows. -/
def depCnt (data : List Trip) (per t : ℤ) (p : ℕ) : ℕ :=
  data.countP (fun r => decide (r.start_location = p) && decide (bucket per r.start_date = t))

/-- Outside the traffic frame's grid there are no matching trip rows. -/
theorem count_zero_outside (data : List Trip) (date : Trip → ℤ) (point : Trip → ℕ)
    (per t : ℤ) (p : ℕ)
    (h : ¬(t ∈ (_create_traffic_df data date point per).times
        ∧ p ∈ (_create_traffic_df data date point per).points)) :
    data.countP (fun r => decide (point r = p) && decide (bucket per (date r) = t)) = 0 := by
  rw [List.countP_eq_length_filter, List.length_eq_zero, List.filter_eq_nil_iff]
  intro r hr hmix
  have hp : point r = p := of_decide_eq_true ((Bool.and_eq_true _ _).mp hmix).1
  have hb : bucket per (date r) = t := of_decide_eq_true ((Bool.and_eq_true _ _).mp hmix).2
  exact h ⟨hb ▸ bucket_mem_times data date point per r hr,
    (mem_points_iff data date point per p).mpr ⟨r, hr, hp⟩⟩

theorem arrivals_cell_eq (data : List Trip) (per t : ℤ) (p : ℕ) :
    (create_arrivals_df data per).cell t p = (arrCnt data per t p : ℤ) := by
  unfold create_arrivals_df arrCnt
  rw [cell_eq_count, List.countP_eq_length_filter]

theorem departures_cell_eq (data : List Trip) (per t : ℤ) (p : ℕ) :
    (create_departures_df data per).cell t p = (depCnt data per t p : ℤ) := by
  unfold create_departures_df depCnt
  rw [cell_eq_count, List.countP_eq_length_filter]

theorem sum_filter_map_flatten (ll : List (List NetRecord)) (p : ℕ) :
    ((ll.flatten.filter (fun r => decide (r.point = p))).map NetRecord.net_balance).sum
      = (ll.map (fun l =>
          ((l.filter (fun r => decide (r.point = p))).map NetRecord.net_balance).sum)).sum := by
  induction ll with
  | nil => simp
  | cons l ll ih =>
    rw [List.flatten_cons, List.filter_append, List.map_append, List.sum_append, ih,
      List.map_cons, List.sum_cons]

theorem subtractFill_cell_both (a d : TrafficDF) (t : ℤ) (p : ℕ)
    (hA : t ∈ a.times ∧ p ∈ a.points) (hD : t ∈ d.times ∧ p ∈ d.points) :
    (subtractFill a d).cell t p = some (a.cell t p - d.cell t p) := by
  unfold subtractFill
  simp only
  rw [if_pos hA, if_pos hD]

theorem subtractFill_cell_left (a d : TrafficDF) (t : ℤ) (p : ℕ)
    (hA : t ∈ a.times ∧ p ∈ a.points) (hD : ¬(t ∈ d.times ∧ p ∈ d.points)) :
    (subtractFill a d).cell t p = some (a.cell t p) := by
  unfold subtractFill
  simp only
  rw [if_pos hA, if_neg hD]
  simp

theorem subtractFill_cell_right (a d : TrafficDF) (t : ℤ) (p : ℕ)
    (hA : ¬(t ∈ a.times ∧ p ∈ a.points)) (hD : t ∈ d.times ∧ p ∈ d.points) :
    (subtractFill a d).cell t p = some (0 - d.cell t p) := by
  unfold subtractFill
  simp only
  rw [if_neg hA, if_pos hD]

theorem subtractFill_cell_none (a d : TrafficDF) (t : ℤ) (p : ℕ)
    (hA : ¬(t ∈ a.times ∧ p ∈ a.points)) (hD : ¬(t ∈ d.times ∧ p ∈ d.points)) :
    (subtractFill a d).cell t p = none := by
  unfold subtractFill
  simp only
  rw [if_neg hA, if_neg hD]

/-- Summing one stacked row of the aligned frame over the rows that carry
point `p`: the cell at `p`, read as 0 when missing or when `p` is not a
column. -/
theorem stack_row_point_sum (t : ℤ) (p : ℕ) (c : ℤ → ℕ → Option ℤ) (ps : List ℕ)
    (hnd : ps.Nodup) :
    (((ps.filterMap (fun q => (c t q).map (fun v => NetRecord.mk t q v))).filter
        (fun r => decide (r.point = p))).map NetRecord.net_balance).sum
      = if p ∈ ps then (c t p).getD 0 else 0 := by
  induction ps with
  | nil => simp
  | cons q ps ih =>
    have hnp : q ∉ ps := (List.nodup_cons.mp hnd).1
    have ihs := ih (List.nodup_cons.mp hnd).2
    by_cases hq : q = p
    · subst hq
      cases hc : c t q with
      | none => simp [List.filterMap_cons, hc, ihs, hnp]
      | some v => simp [List.filterMap_cons, hc, ihs, hnp]
    · have hqp : ¬(p = q ∨ p ∈ ps) ↔ ¬(p ∈ ps) := by
        constructor
        · intro h hp
          exact h (Or.inr hp)
        · intro h hp
          rcases hp with h1 | h1
          · exact hq h1.symm
          · exact h h1
      cases hc : c t q with
      | none => simp [List.filterMap_cons, hc, ihs, Ne.symm hq]
      | some v => simp [List.filterMap_cons, hc, ihs, hq, Ne.symm hq]

/-- The value a surviving stacked cell carries is exactly raw arrivals minus
raw departures for that bucket and point; a dropped cell corresponds to zero
of each. -/
theorem net_cell_value (data : List Trip) (per : ℤ) (t : ℤ) (p : ℕ) :
    (if p ∈ (subtractFill (create_arrivals_df data per)
          (create_departures_df data per)).points
        then ((subtractFill (create_arrivals_df data per)
          (create_departures_df data per)).cell t p).getD 0 else 0)
      = (arrCnt data per t p : ℤ) - (depCnt data per t p : ℤ) := by
  set A := create_arrivals_df data per with hAdef
  set D := create_departures_df data per with hDdef
  by_cases hpm : p ∈ (subtractFill A D).points
  · rw [if_pos hpm]
    by_cases hA1 : t ∈ A.times ∧ p ∈ A.points
    · by_cases hD1 : t ∈ D.times ∧ p ∈ D.points
      · rw [subtractFill_cell_both A D t p hA1 hD1, Option.getD_some,
          hAdef, hDdef, arrivals_cell_eq, departures_cell_eq]
      · have hz : depCnt data per t p = 0 := by
          unfold depCnt
          exact count_zero_outside data Trip.start_date Trip.start_location per t p
            hD1
        rw [subtractFill_cell_left A D t p hA1 hD1, Option.getD_some,
          hAdef, arrivals_cell_eq, hz]
        simp
    · by_cases hD1 : t ∈ D.times ∧ p ∈ D.points
      · have hz : arrCnt data per t p = 0 := by
          unfold arrCnt
          exact count_zero_outside data Trip.end_date Trip.end_location per t p
            hA1
        rw [subtractFill_cell_right A D t p hA1 hD1, Option.getD_some,
          hDdef, departures_cell_eq, hz]
        simp
      · have hza : arrCnt data per t p = 0 := by
          unfold arrCnt
          exact count_zero_outside data Trip.end_date Trip.end_location per t p
            hA1
        have hzd : depCnt data per t p = 0 := by
          unfold depCnt
          exact count_zero_outside data Trip.start_date Trip.start_location per t p
            hD1
        rw [subtractFill_cell_none A D t p hA1 hD1, hza, hzd]
        simp
  · rw [if_neg hpm]
    have hnp : ¬(p ∈ A.points ∨ p ∈ D.points) := by
      rw [← mem_subtractFill_points A D p]
      exact hpm
    have hza : arrCnt data per t p = 0 := by
      unfold arrCnt
      refine count_zero_outside data Trip.end_date Trip.end_location per t p ?_
      intro ⟨_, hp⟩
      exact hnp (Or.inl hp)
    have hzd : depCnt data per t p = 0 := by
      unfold depCnt
      refine count_zero_outside data Trip.start_date Trip.start_location per t p ?_
      intro ⟨_, hp⟩
      exact hnp (Or.inr hp)
    rw [hza, hzd]
    simp

/-- C2: conservation law — for every trip table, resampling period and point,
the net balances produced by traffic_by_points for that point sum, over all
buckets, to total arrivals minus total departures of that point counted
directly from the raw trip rows. -/
theorem c2_conservation (data : List Trip) (per : ℤ) (p : ℕ) (hper : 0 < per) :
    (((traffic_by_points data per).2.filter (fun r => decide (r.point = p))).map
        NetRecord.net_balance).sum
      = ((data.countP (fun r => decide (r.end_location = p)) : ℕ) : ℤ)
        - ((data.countP (fun r => decide (r.start_location = p)) : ℕ) : ℤ) := by
  rw [traffic_by_points_net]
  set A := create_arrivals_df data per with hAdef
  set D := create_departures_df data per with hDdef
  set m := subtractFill A D with hmdef
  unfold stackDF
  rw [sum_filter_map_flatten, List.map_map]
  have hrow : ∀ t ∈ m.times,
      ((fun l => ((l.filter (fun r => decide (r.point = p))).map
          NetRecord.net_balance).sum) ∘
        (fun t => m.points.filterMap
          (fun q => (m.cell t q).map (fun v => NetRecord.mk t q v)))) t
        = (arrCnt data per t p : ℤ) - (depCnt data per t p : ℤ) := by
    intro t _
    have h1 := stack_row_point_sum t p m.cell m.points (subtractFill_points_nodup A D)
    have h2 := net_cell_value data per t p
    rw [Function.comp_apply, h1]
    exact h2
  rw [List.map_congr_left hrow, sum_map_sub_int]
  have hcovA : ∀ r ∈ data, (fun r : Trip => decide (r.end_location = p)) r = true →
      (fun r : Trip => bucket per r.end_date) r ∈ m.times := by
    intro r hr _
    exact subtractFill_times_left A D _
      (bucket_mem_times data Trip.end_date Trip.end_location per r hr)
  have hcovD : ∀ r ∈ data, (fun r : Trip => decide (r.start_location = p)) r = true →
      (fun r : Trip => bucket per r.start_date) r ∈ m.times := by
    intro r hr _
    exact subtractFill_times_right A D _
      (bucket_mem_times data Trip.start_date Trip.start_location per r hr)
  have harr : (m.times.map (fun t => (arrCnt data per t p : ℤ))).sum
      = ((data.countP (fun r => decide (r.end_location = p)) : ℕ) : ℤ) := by
    rw [sum_map_natCast m.times (fun t => arrCnt data per t p)]
    congr 1
    exact sum_fiber_counts (fun r : Trip => bucket per r.end_date)
      (fun r => decide (r.end_location = p)) m.times
      (subtractFill_times_nodup A D) data hcovA
  have hdep : (m.times.map (fun t => (depCnt data per t p : ℤ))).sum
      = ((data.countP (fun r => decide (r.start_location = p)) : ℕ) : ℤ) := by
    rw [sum_map_natCast m.times (fun t => depCnt data per t p)]
    congr 1
    exact sum_fiber_counts (fun r : Trip => bucket per r.start_date)
      (fun r => decide (r.start_location = p)) m.times
      (subtractFill_times_nodup A D) data hcovD
  rw [harr, hdep]

/-- Witness for C2: one trip from point 1 to point 2, daily buckets. -/
theorem c2_conservation_witness :
    (0 : ℤ) < 24
      ∧ ((((traffic_by_points [⟨6, 7, 1, 2⟩] 24).2.filter
            (fun r => decide (r.point = 2))).map NetRecord.net_balance).sum
          = (([⟨6, 7, 1, 2⟩] : List Trip).countP
              (fun r => decide (r.end_location = 2)) : ℤ)
            - (([⟨6, 7, 1, 2⟩] : List Trip).countP
              (fun r => decide (r.start_location = 2)) : ℤ)) :=
  ⟨by decide, c2_conservation [⟨6, 7, 1, 2⟩] 24 2 (by decide)⟩

/-- C4 (amended): the Point Time Series grid of the Traffic Aggregator has a
column for every point present in the input; its row index contains the
bucket of every trip, and more precisely every bucket of each present
point's own covered range (from that point's first to its last bucket) and
nothing else; every cell holds the count of that point's trips in that
bucket — 0, never NaN or a missing entry, where there are none.  (The rows
are the union of the per-point ranges, not every bucket of the overall
covered time range: see the counterexample.) -/
theorem c4_traffic_grid (data : List Trip) (date : Trip → ℤ) (point : Trip → ℕ)
    (per : ℤ) :
    (∀ p : ℕ, p ∈ (_create_traffic_df data date point per).points
        ↔ ∃ r ∈ data, point r = p)
      ∧ (∀ r ∈ data,
          bucket per (date r) ∈ (_create_traffic_df data date point per).times)
      ∧ (∀ p : ℕ, ∀ b : ℤ, (∃ r ∈ data, point r = p) →
          b ∈ bucketRange per ((data.filter (fun r => decide (point r = p))).map date) →
          b ∈ (_create_traffic_df data date point per).times)
      ∧ (∀ t ∈ (_create_traffic_df data date point per).times,
          ∃ p ∈ (_create_traffic_df data date point per).points,
            t ∈ bucketRange per ((data.filter (fun r => decide (point r = p))).map date))
      ∧ (∀ t : ℤ, ∀ p : ℕ, (_create_traffic_df data date point per).cell t p
          = (data.countP (fun r =>
              decide (point r = p) && decide (bucket per (date r) = t)) : ℤ)) := by
  refine ⟨mem_points_iff data date point per, bucket_mem_times data date point per,
    fun p b hp hb => bucketRange_subset_times data date point per p hp b hb, ?_, ?_⟩
  · intro t ht
    have ht2 : t ∈ ((List.insertionSort (· ≤ ·) (data.map point).dedup).map (fun p =>
        bucketRange per ((data.filter (fun r => decide (point r = p))).map date))).flatten := by
      have := ht
      unfold _create_traffic_df at this
      simp only at this
      rw [List.mem_insertionSort, List.mem_dedup] at this
      exact this
    obtain ⟨l, hl, htl⟩ := List.mem_flatten.mp ht2
    obtain ⟨p, hp, rfl⟩ := List.mem_map.mp hl
    refine ⟨p, ?_, htl⟩
    unfold _create_traffic_df
    simp only
    exact hp
  · intro t p
    rw [cell_eq_count, List.countP_eq_length_filter]

/-- C4 counterexample: with one trip on day 0 at point 0 and one on day 2 at
point 1 (daily buckets), the covered time range spans buckets 0, 1, 2, but
the departures frame has rows only for buckets 0 and 2 — each group is
resampled over its own range, so bucket 1 of the covered range has no row. -/
theorem c4_counterexample :
    (0 : ℤ) ∈ (create_departures_df [⟨0, 0, 0, 0⟩, ⟨48, 48, 1, 1⟩] 24).times
      ∧ (2 : ℤ) ∈ (create_departures_df [⟨0, 0, 0, 0⟩, ⟨48, 48, 1, 1⟩] 24).times
      ∧ (1 : ℤ) ∉ (create_departures_df [⟨0, 0, 0, 0⟩, ⟨48, 48, 1, 1⟩] 24).times := by
  refine ⟨by decide, by decide, by decide⟩

/-! ### Deficit Estimator (features.py 334-386) -/

/-- `(time - Timedelta(hours=6)).dt.date`: the operating-day key, the
calendar date (floor of days since the epoch) of the timestamp shifted back
6 hours. -/
def day6am (t : ℤ) : ℤ := (t - 6).fdiv 24

/-- A `net_long` row after the `day_6am` column has been assigned. -/
structure Row where
  time : ℤ
  point : ℕ
  net_balance : ℤ
  day_6am : ℤ
deriving DecidableEq, Repr

/-- `net_long['day_6am'] = (net_long['time'] - pd.Timedelta(hours=6)).dt.date`. -/
def assignDay (l : List NetRecord) : List Row :=
  l.map (fun r => ⟨r.time, r.point, r.net_balance, day6am r.time⟩)

/-- The groupby key (point, day_6am). -/
def groupKey (r : Row) : ℕ × ℤ := (r.point, r.day_6am)

/-- The full sort key (point, day_6am, time) of `sort_values`. -/
def rowKey3 (r : Row) : ℕ × ℤ × ℤ := (r.point, r.day_6am, r.time)

/-- Lexicographic order on (point, day, time) sort keys. -/
def key3Le (a b : ℕ × ℤ × ℤ) : Prop :=
  a.1 < b.1 ∨ (a.1 = b.1 ∧ (a.2.1 < b.2.1 ∨ (a.2.1 = b.2.1 ∧ a.2.2 ≤ b.2.2)))

/-- Strict lexicographic order on (point, day, time) sort keys. -/
def key3Lt (a b : ℕ × ℤ × ℤ) : Prop :=
  a.1 < b.1 ∨ (a.1 = b.1 ∧ (a.2.1 < b.2.1 ∨ (a.2.1 = b.2.1 ∧ a.2.2 < b.2.2)))

instance : DecidableRel key3Le := fun a b => by unfold key3Le; exact inferInstance

instance : IsTotal (ℕ × ℤ × ℤ) key3Le := ⟨fun a b => by unfold key3Le; omega⟩

instance : IsTrans (ℕ × ℤ × ℤ) key3Le := ⟨fun a b c => by unfold key3Le; omega⟩

theorem key3Lt_of_le_ne (x y : ℕ × ℤ × ℤ) (hle : key3Le x y) (hne : x ≠ y) :
    key3Lt x y := by
  rcases x with ⟨x1, x2, x3⟩
  rcases y with ⟨y1, y2, y3⟩
  have : ¬(x1 = y1 ∧ x2 = y2 ∧ x3 = y3) := by
    intro ⟨h1, h2, h3⟩
    exact hne (by simp [h1, h2, h3])
  unfold key3Le at hle
  unfold key3Lt
  simp only at hle ⊢
  omega

theorem key3Lt_asymm (a b : ℕ × ℤ × ℤ) (h1 : key3Lt a b) (h2 : key3Lt b a) :
    False := by
  unfold key3Lt at h1 h2
  omega

/-- `sort_values(['point', 'day_6am', 'time'])`: comparison by the
lexicographic sort key. -/
def rowLe (a b : Row) : Prop := key3Le (rowKey3 a) (rowKey3 b)

instance : DecidableRel rowLe := fun a b => by unfold rowLe; exact inferInstance

instance : IsTotal Row rowLe :=
  ⟨fun a b => IsTotal.total (rowKey3 a) (rowKey3 b)⟩

instance : IsTrans Row rowLe :=
  ⟨fun a b c h1 h2 => IsTrans.trans (rowKey3 a) (rowKey3 b) (rowKey3 c) h1 h2⟩

/-- Chronological comparison of rows. -/
def timeLe (a b : Row) : Prop := a.time ≤ b.time

instance : DecidableRel timeLe := fun a b => by unfold timeLe; exact inferInstance

instance : IsTotal Row timeLe := ⟨fun a b => Int.le_total a.time b.time⟩

instance : IsTrans Row timeLe := ⟨fun a b c h1 h2 => le_trans h1 h2⟩

/-- A `net_long` row after the `cumulative` column has been assigned. -/
structure CRow where
  time : ℤ
  point : ℕ
  net_balance : ℤ
  day_6am : ℤ
  cumulative : ℤ
deriving DecidableEq, Repr

/-- The groupby key (point, day_6am) of a cumulated row. -/
def cKey (r : CRow) : ℕ × ℤ := (r.point, r.day_6am)

def sumNet (l : List Row) : ℤ := (l.map Row.net_balance).sum

/-- `groupby(['point', 'day_6am'])['net_balance'].cumsum()`: in frame order,
each row's cumulative value is the sum of `net_balance` over the rows up to
and including it that carry the same (point, day_6am) key; `pre` holds the
rows already passed. -/
def withCumulative : List Row → List Row → List CRow
  | _, [] => []
  | pre, r :: rest =>
    ⟨r.time, r.point, r.net_balance, r.day_6am,
      sumNet ((pre ++ [r]).filter (fun x => decide (groupKey x = groupKey r)))⟩
      :: withCumulative (pre ++ [r]) rest

/-- Minimum of a list of integers, 0 for the empty list (pandas groupby only
ever takes the minimum over a nonempty group, so the default is never
read). -/
def minimumD : List ℤ → ℤ
  | [] => 0
  | x :: xs => xs.foldl min x

/-- One row of the Daily Deficit table `daily_min`. -/
structure DeficitRecord where
  point : ℕ
  day_6am : ℤ
  cumulative : ℤ
  optimal_count : ℤ
deriving DecidableEq, Repr

/-- `groupby(['point', 'day_6am'])['cumulative'].min().reset_index()`
followed by the `optimal_count` column `abs(x) if x < 0 else 0`: one row per
distinct key, keys in ascending order. -/
def dailyMin (l : List CRow) : List DeficitRecord :=
  (List.insertionSort key2Le (l.map cKey).dedup).map (fun k =>
    let m := minimumD ((l.filter (fun r => decide (cKey r = k))).map CRow.cumulative)
    ⟨k.1, k.2, m, if m < 0 then |m| else 0⟩)

/-- Translation of `calculate_optimal_scooters` (features.py 334-386):
assign the operating-day column, sort by (point, day_6am, time), assign the
per-group running cumulative sums, and reduce each group to its minimum
cumulative value and optimal count. -/
def calculate_optimal_scooters (net_long : List NetRecord) : List DeficitRecord :=
  dailyMin (withCumulative [] (List.insertionSort rowLe (assignDay net_long)))

/-- Running sums of a list, starting from `s`. -/
def scanSums (s : ℤ) : List ℤ → List ℤ
  | [] => []
  | a :: as => (s + a) :: scanSums (s + a) as

/-- The claim's reading of one group: the records of the (point, day) group
in chronological order, with their running cumulative sums from 0. -/
def specGroupCums (net_long : List NetRecord) (k : ℕ × ℤ) : List ℤ :=
  scanSums 0 ((List.insertionSort timeLe
    ((assignDay net_long).filter (fun r => decide (groupKey r = k)))).map
      Row.net_balance)

/-- The claim's reading of the whole Deficit Estimator: per (point,
operating-day) group, the minimum of the chronological cumulative sums and
`optimal_count = max(0, -min)`. -/
def specDeficit (net_long : List NetRecord) : List DeficitRecord :=
  (List.insertionSort key2Le ((assignDay net_long).map groupKey).dedup).map (fun k =>
    let m := minimumD (specGroupCums net_long k)
    ⟨k.1, k.2, m, max 0 (-m)⟩)

theorem withCumulative_map_cKey :
    ∀ (l pre : List Row), (withCumulative pre l).map cKey = l.map groupKey := by
  intro l
  induction l with
  | nil =>
    intro pre
    simp [withCumulative]
  | cons r rest ih =>
    intro pre
    simp only [withCumulative, List.map_cons]
    rw [ih]
    rfl

/-- The cumulative column restricted, in order, to the rows of one group is
the list of running sums of that group's net balances, continued from the
sum the rows already passed contribute to the group. -/
theorem withCumulative_filter (k : ℕ × ℤ) :
    ∀ (l pre : List Row),
      ((withCumulative pre l).filter (fun c => decide (cKey c = k))).map CRow.cumulative
        = scanSums (sumNet (pre.filter (fun x => decide (groupKey x = k))))
            ((l.filter (fun x => decide (groupKey x = k))).map Row.net_balance) := by
  intro l
  induction l with
  | nil =>
    intro pre
    simp [withCumulative, scanSums]
  | cons r rest ih =>
    intro pre
    by_cases hk : groupKey r = k
    · subst hk
      have hsum : sumNet ((pre ++ [r]).filter (fun x => decide (groupKey x = groupKey r)))
          = sumNet (pre.filter (fun x => decide (groupKey x = groupKey r)))
            + r.net_balance := by
        unfold sumNet
        rw [List.filter_append, List.map_append, List.sum_append]
        simp
      have hhead : (decide (cKey (⟨r.time, r.point, r.net_balance, r.day_6am,
          sumNet ((pre ++ [r]).filter
            (fun x => decide (groupKey x = groupKey r)))⟩ : CRow) = groupKey r)) = true := by
        simp [cKey, groupKey]
      simp only [withCumulative, List.filter_cons, hhead, if_true, List.map_cons,
        decide_eq_true_eq, decide_True, ite_true]
      rw [ih (pre ++ [r]), hsum]
      simp [scanSums]
    · have hhead : (decide (cKey (⟨r.time, r.point, r.net_balance, r.day_6am,
          sumNet ((pre ++ [r]).filter
            (fun x => decide (groupKey x = groupKey r)))⟩ : CRow) = k)) = false := by
        simp only [cKey, decide_eq_false_iff_not]
        intro hc
        exact hk hc
      have hr : (decide (groupKey r = k)) = false := by
        simp [hk]
      have hpre : (pre ++ [r]).filter (fun x => decide (groupKey x = k))
          = pre.filter (fun x => decide (groupKey x = k)) := by
        rw [List.filter_append]
        simp [hr]
      simp only [withCumulative, List.filter_cons, hhead, hr, Bool.false_eq_true,
        if_false]
      rw [ih (pre ++ [r]), hpre]

/-- Filtering one group out of the frame sorted by (point, day, time) gives
the group's rows sorted chronologically, provided no two rows of a group
share a timestamp. -/
theorem filter_sort_eq_sort_filter (L : List Row) (k : ℕ × ℤ)
    (hnd : (L.map rowKey3).Nodup) :
    (List.insertionSort rowLe L).filter (fun r => decide (groupKey r = k))
      = List.insertionSort timeLe (L.filter (fun r => decide (groupKey r = k))) := by
  set q : Row → Bool := fun r => decide (groupKey r = k) with hq
  have hperm : ((List.insertionSort rowLe L).filter q).Perm
      (List.insertionSort timeLe (L.filter q)) :=
    ((List.perm_insertionSort rowLe L).filter q).trans
      (List.perm_insertionSort timeLe (L.filter q)).symm
  have hgk : ∀ a b : Row, groupKey a = k → groupKey b = k →
      a.point = b.point ∧ a.day_6am = b.day_6am := by
    intro a b hka hkb
    have hk2 : (a.point, a.day_6am) = (b.point, b.day_6am) := by
      rw [show (a.point, a.day_6am) = groupKey a from rfl, hka,
        show (b.point, b.day_6am) = groupKey b from rfl, hkb]
    exact ⟨congrArg Prod.fst hk2, congrArg Prod.snd hk2⟩
  have htimeL : ((List.insertionSort rowLe L).filter q).Pairwise
      (fun a b => a.time < b.time) := by
    have hstrict : (List.insertionSort rowLe L).Pairwise
        (fun a b => key3Lt (rowKey3 a) (rowKey3 b)) :=
      pairwise_strict_of_sorted_nodup rowKey3 key3Le key3Lt key3Lt_of_le_ne _
        (List.sorted_insertionSort rowLe L)
        (((List.perm_insertionSort rowLe L).map rowKey3).symm.nodup hnd)
    refine (hstrict.filter q).imp_of_mem ?_
    intro a b ha hb hlt
    have hka : groupKey a = k := of_decide_eq_true (List.mem_filter.mp ha).2
    have hkb : groupKey b = k := of_decide_eq_true (List.mem_filter.mp hb).2
    obtain ⟨hp, hd⟩ := hgk a b hka hkb
    unfold key3Lt rowKey3 at hlt
    simp only at hlt
    omega
  have htimeR : (List.insertionSort timeLe (L.filter q)).Pairwise
      (fun a b => a.time < b.time) := by
    have hndf : ((L.filter q).map rowKey3).Nodup :=
      ((List.filter_sublist L).map rowKey3).nodup hnd
    have hndR : ((List.insertionSort timeLe (L.filter q)).map rowKey3).Nodup :=
      ((List.perm_insertionSort timeLe (L.filter q)).map rowKey3).symm.nodup hndf
    have hneR : (List.insertionSort timeLe (L.filter q)).Pairwise
        (fun a b => rowKey3 a ≠ rowKey3 b) := List.pairwise_map.mp hndR
    have hsortedR : (List.insertionSort timeLe (L.filter q)).Pairwise timeLe :=
      List.sorted_insertionSort timeLe (L.filter q)
    refine (hsortedR.and hneR).imp_of_mem ?_
    intro a b ha hb hpair
    obtain ⟨hle, hne⟩ := hpair
    have hka : groupKey a = k := of_decide_eq_true
      (List.mem_filter.mp ((List.mem_insertionSort timeLe).mp ha)).2
    have hkb : groupKey b = k := of_decide_eq_true
      (List.mem_filter.mp ((List.mem_insertionSort timeLe).mp hb)).2
    obtain ⟨hp, hd⟩ := hgk a b hka hkb
    have hte : a.time ≠ b.time := by
      intro he
      refine hne ?_
      unfold rowKey3
      rw [hp, hd, he]
    unfold timeLe at hle
    omega
  exact eq_of_perm_of_pairwise_strict (fun a b h1 h2 => absurd h1 (by omega))
    _ _ hperm htimeL htimeR

/-- An insertion sort of a duplicate-free key list is strictly increasing. -/
theorem sort_key2_strict (l : List (ℕ × ℤ)) (hnd : l.Nodup) :
    (List.insertionSort key2Le l).Pairwise key2Lt := by
  have hsorted : (List.insertionSort key2Le l).Pairwise key2Le :=
    List.sorted_insertionSort key2Le l
  have hndS : (List.insertionSort key2Le l).Nodup :=
    (List.perm_insertionSort key2Le l).symm.nodup hnd
  exact (hsorted.and hndS).imp (fun h => key2Lt_of_le_ne _ _ h.1 h.2)

/-- The groupby keys the code enumerates (from the sorted, cumulated frame)
are the groupby keys of the original frame. -/
theorem sorted_keys_eq (net_long : List NetRecord) :
    List.insertionSort key2Le
      ((withCumulative [] (List.insertionSort rowLe (assignDay net_long))).map
        cKey).dedup
      = List.insertionSort key2Le ((assignDay net_long).map groupKey).dedup := by
  rw [withCumulative_map_cKey]
  have hperm : ((List.insertionSort rowLe (assignDay net_long)).map groupKey).dedup.Perm
      ((assignDay net_long).map groupKey).dedup :=
    ((List.perm_insertionSort rowLe (assignDay net_long)).map groupKey).dedup
  refine eq_of_perm_of_pairwise_strict key2Lt_asymm _ _
    ?_ (sort_key2_strict _ (List.nodup_dedup _)) (sort_key2_strict _ (List.nodup_dedup _))
  exact ((List.perm_insertionSort key2Le _).trans hperm).trans
    (List.perm_insertionSort key2Le _).symm

theorem if_abs_eq_max (m : ℤ) : (if m < 0 then |m| else 0) = max 0 (-m) := by
  by_cases h : m < 0
  · rw [if_pos h, abs_of_neg h]
    exact (max_eq_right (by omega)).symm
  · rw [if_neg h]
    exact (max_eq_left (by omega)).symm

/-- C1: calculate_optimal_scooters keys each record by the operating day
(timestamp minus 6 hours, calendar date), forms the running cumulative sums
of net_balance within each (point, operating-day) group in chronological
order, and returns per group the minimum cumulative value together with
optimal_count = max(0, -min) — stated as equality with the spec-side
pipeline for every input whose (point, day, time) keys are distinct; and on
the single-point, single-day series [+5, -20, +3, -2] at hours 6, 10, 14,
18 the cumulative sums are [5, -15, -12, -14], the minimum -15 and the
optimal count 15. -/
theorem c1_optimal_scooters :
    (∀ net_long : List NetRecord, ((assignDay net_long).map rowKey3).Nodup →
        calculate_optimal_scooters net_long = specDeficit net_long)
      ∧ (withCumulative [] (List.insertionSort rowLe
            (assignDay [⟨6, 1, 5⟩, ⟨10, 1, -20⟩, ⟨14, 1, 3⟩, ⟨18, 1, -2⟩]))).map
          CRow.cumulative = [5, -15, -12, -14]
      ∧ calculate_optimal_scooters [⟨6, 1, 5⟩, ⟨10, 1, -20⟩, ⟨14, 1, 3⟩, ⟨18, 1, -2⟩]
          = [⟨1, 0, -15, 15⟩] := by
  refine ⟨?_, by decide, by decide⟩
  intro net_long hnd
  unfold calculate_optimal_scooters specDeficit dailyMin
  rw [sorted_keys_eq]
  refine List.map_congr_left ?_
  intro k _
  have hcum : ((withCumulative [] (List.insertionSort rowLe (assignDay net_long))).filter
      (fun r => decide (cKey r = k))).map CRow.cumulative = specGroupCums net_long k := by
    rw [withCumulative_filter k (List.insertionSort rowLe (assignDay net_long)) []]
    unfold specGroupCums
    rw [filter_sort_eq_sort_filter (assignDay net_long) k hnd]
    simp [sumNet]
  simp only [hcum, if_abs_eq_max]

/-- C5 counterexample: a net-balance table with two records at the same
(point, timestamp) — non-unique timestamps within a group — does not make
calculate_optimal_scooters raise: the call returns a normal, nonempty
result. -/
theorem c5_counterexample :
    calculate_optimal_scooters [⟨6, 1, 3⟩, ⟨6, 1, -5⟩] = [⟨1, 0, -2, 2⟩]
      ∧ calculate_optimal_scooters [⟨6, 1, 3⟩, ⟨6, 1, -5⟩]
          ≠ ([] : List DeficitRecord) := by
  refine ⟨by decide, by decide⟩

/-- C5 (amended): calculate_optimal_scooters never raises on
non-chronological or non-unique timestamps — it sorts the input itself, so
any reordering of a well-keyed input yields the identical result, and
duplicated timestamps are folded into their group in sorted order and still
produce a result (see the counterexample). -/
theorem c5_no_raise (l1 l2 : List NetRecord) (hperm : l1.Perm l2)
    (hnd : ((assignDay l1).map rowKey3).Nodup) :
    calculate_optimal_scooters l1 = calculate_optimal_scooters l2 := by
  unfold calculate_optimal_scooters
  have hpermL : (assignDay l1).Perm (assignDay l2) := hperm.map _
  have hnd2 : ((assignDay l2).map rowKey3).Nodup := (hpermL.map rowKey3).nodup hnd
  have hs1 : (List.insertionSort rowLe (assignDay l1)).Pairwise
      (fun a b => key3Lt (rowKey3 a) (rowKey3 b)) :=
    pairwise_strict_of_sorted_nodup rowKey3 key3Le key3Lt key3Lt_of_le_ne _
      (List.sorted_insertionSort rowLe _)
      (((List.perm_insertionSort rowLe _).map rowKey3).symm.nodup hnd)
  have hs2 : (List.insertionSort rowLe (assignDay l2)).Pairwise
      (fun a b => key3Lt (rowKey3 a) (rowKey3 b)) :=
    pairwise_strict_of_sorted_nodup rowKey3 key3Le key3Lt key3Lt_of_le_ne _
      (List.sorted_insertionSort rowLe _)
      (((List.perm_insertionSort rowLe _).map rowKey3).symm.nodup hnd2)
  have hperm12 : (List.insertionSort rowLe (assignDay l1)).Perm
      (List.insertionSort rowLe (assignDay l2)) :=
    (List.perm_insertionSort rowLe _).trans
      (hpermL.trans (List.perm_insertionSort rowLe _).symm)
  rw [eq_of_perm_of_pairwise_strict (fun a b h1 h2 => key3Lt_asymm _ _ h1 h2)
    _ _ hperm12 hs1 hs2]

/-- Witness for the amended C5 theorem: a non-chronological two-record input
gives the same result as its chronologically ordered permutation. -/
theorem c5_no_raise_witness :
    ([⟨10, 1, -20⟩, ⟨6, 1, 5⟩] : List NetRecord).Perm [⟨6, 1, 5⟩, ⟨10, 1, -20⟩]
      ∧ ((assignDay [⟨10, 1, -20⟩, ⟨6, 1, 5⟩]).map rowKey3).Nodup
      ∧ calculate_optimal_scooters [⟨10, 1, -20⟩, ⟨6, 1, 5⟩]
          = calculate_optimal_scooters [⟨6, 1, 5⟩, ⟨10, 1, -20⟩] :=
  ⟨List.Perm.swap _ _ _, by decide,
    c5_no_raise _ _ (List.Perm.swap _ _ _) (by decide)⟩

/-- Translation of `_classify_point` (features.py 431-470): an ordered
`if`/`elif` dispatch on the `net_flow` and `flow_ratio` columns.  The Python
float thresholds 1.5 and 0.5 are exact rationals. -/
def _classify_point (net ratio : ℚ) : String :=
  if 10 < net ∧ 3/2 < ratio then "strong_acceptor"
  else if 5 < net then "acceptor"
  else if net < -10 ∧ ratio < 1/2 then "strong_donor"
  else if net < -5 then "donor"
  else if -5 ≤ net ∧ net ≤ 5 then "balanced"
  else "unknown"

/-- C3 counterexample: net = 7, ratio = 1 lies in (5, 10] with ratio ≤ 1.5,
so the claim says the classification is "unknown"; the code's second branch
(`elif net > 5`) fires first and returns "acceptor". -/
theorem c3_counterexample :
    _classify_point 7 1 = "acceptor" ∧ _classify_point 7 1 ≠ "unknown" := by
  refine ⟨by decide, by decide⟩

/-- C3 (amended): `_classify_point` is total and evaluates its rules in the
fixed priority order strong_acceptor, acceptor, strong_donor, donor,
balanced; net = 10 with ratio = 2 gives "acceptor" (not "strong_acceptor"),
net = 10.01 with ratio = 1.51 gives "strong_acceptor", net = 6 with
ratio = 0.2 gives "acceptor", net = 0 gives "balanced" for every ratio;
because the acceptor branch is checked before any ratio condition on the
positive side, every net in (5, 10] yields "acceptor" whatever the ratio,
symmetrically every net in [-10, -5) yields "donor", and "unknown" is never
returned. -/
theorem c3_classification :
    _classify_point 10 2 = "acceptor"
      ∧ _classify_point (1001/100) (151/100) = "strong_acceptor"
      ∧ _classify_point 6 (1/5) = "acceptor"
      ∧ (∀ ratio : ℚ, _classify_point 0 ratio = "balanced")
      ∧ (∀ net ratio : ℚ, 5 < net → net ≤ 10 →
          _classify_point net ratio = "acceptor")
      ∧ (∀ net ratio : ℚ, -10 ≤ net → net < -5 →
          _classify_point net ratio = "donor")
      ∧ (∀ net ratio : ℚ, _classify_point net ratio ≠ "unknown") := by
  refine ⟨by unfold _classify_point; norm_num, by unfold _classify_point; norm_num,
    by unfold _classify_point; norm_num, ?_, ?_, ?_, ?_⟩
  · intro ratio
    unfold _classify_point
    norm_num
  · intro net ratio h5 h10
    unfold _classify_point
    have h1 : ¬(10 < net ∧ 3/2 < ratio) := by rintro ⟨ha, _⟩; linarith
    rw [if_neg h1, if_pos h5]
  · intro net ratio hm10 hm5
    unfold _classify_point
    have h1 : ¬(10 < net ∧ 3/2 < ratio) := by rintro ⟨ha, _⟩; linarith
    have h2 : ¬(5 < net) := by linarith
    have h3 : ¬(net < -10 ∧ ratio < 1/2) := by rintro ⟨ha, _⟩; linarith
    rw [if_neg h1, if_neg h2, if_neg h3, if_pos hm5]
  · intro net ratio
    unfold _classify_point
    split_ifs with h1 h2 h3 h4 h5
    · decide
    · decide
    · decide
    · decide
    · decide
    · exact absurd ⟨not_lt.mp h4, not_lt.mp h2⟩ h5

/-- Witness for the amended C3 theorem: the acceptor band instantiated at
net = 7, ratio = 0. -/
theorem c3_classification_witness :
    (5 : ℚ) < 7 ∧ (7 : ℚ) ≤ 10 ∧ _classify_point 7 0 = "acceptor" :=
  ⟨by norm_num, by norm_num,
    c3_classification.2.2.2.2.1 7 0 (by norm_num) (by norm_num)⟩

/-! ### OD Matrix Builder (features.py 389-428) -/

/-- One row of an OD matrix: the optional period column (present when the
matrix was built with an aggregation period), origin, destination and trip
count. -/
structure ODRow where
  period : Option ℤ
  start_location : ℕ
  end_location : ℕ
  count : ℕ
deriving DecidableEq, Repr

/-- The (origin, destination) pair of a trip. -/
def tripPair (t : Trip) : ℕ × ℕ := (t.start_location, t.end_location)

/-- The (period, origin, destination) groupby key in period mode:
`to_period` truncates the trip's start timestamp to the period boundary. -/
def tripDayKey (w : ℤ) (t : Trip) : ℤ × ℕ × ℕ :=
  (bucket w t.start_date, t.start_location, t.end_location)

/-- Translation of `create_od_matrix` (features.py 389-428).  `some w`
models a truthy period of bucket width `w` hours (the default "d" is
`w = 24`); `none` models `period=None`: aggregation over the whole dataset.
`groupby(...).size().reset_index(name="count")` yields one row per distinct
key present, keys in ascending order, each count the size of its group. -/
def create_od_matrix (data : List Trip) (period : Option ℤ) : List ODRow :=
  match period with
  | some w =>
    (List.insertionSort odKeyLe (data.map (tripDayKey w)).dedup).map (fun k =>
      ⟨some k.1, k.2.1, k.2.2, data.countP (fun t => decide (tripDayKey w t = k))⟩)
  | none =>
    (List.insertionSort pairLe (data.map tripPair).dedup).map (fun k =>
      ⟨none, k.1, k.2, data.countP (fun t => decide (tripPair t = k))⟩)

/-! ### Flow Classifier (features.py 473-529) -/

/-- `od_matrix.groupby(start_point)["count"].sum()` read at point `p`: the
total count over the matrix rows whose origin is `p` (0 when `p` never
appears as an origin, which is what the outer merge's `fillna(0)` puts in
the missing cell). -/
def odOutflow (m : List ODRow) (p : ℕ) : ℕ :=
  ((m.filter (fun e => decide (e.start_location = p))).map ODRow.count).sum

/-- `od_matrix.groupby(end_point)["count"].sum()` read at point `p`. -/
def odInflow (m : List ODRow) (p : ℕ) : ℕ :=
  ((m.filter (fun e => decide (e.end_location = p))).map ODRow.count).sum

/-- The point index of `pd.merge(outflow, inflow, on="point", how="outer")`:
the sorted union of the origin and destination keys. -/
def flowPoints (m : List ODRow) : List ℕ :=
  List.insertionSort (· ≤ ·)
    (m.map ODRow.start_location ++ m.map ODRow.end_location).dedup

/-- One row of the `point_summary` frame. -/
structure FlowRow where
  point : ℕ
  outflow : ℕ
  inflow : ℕ
  net_flow : ℤ
  flow_ratio : ℚ
  point_type : String
deriving DecidableEq, Repr

/-- One `point_summary` row: outflow and inflow sums (missing side 0),
`net_flow = inflow - outflow`,
`flow_ratio = inflow / outflow.replace(0, 1)`, and the classification. -/
def mkFlowRow (m : List ODRow) (p : ℕ) : FlowRow :=
  let o := odOutflow m p
  let i := odInflow m p
  let net : ℤ := (i : ℤ) - (o : ℤ)
  let ratio : ℚ := (i : ℚ) / (((if o = 0 then 1 else o) : ℕ) : ℚ)
  ⟨p, o, i, net, ratio, _classify_point (net : ℚ) ratio⟩

/-- `create_od_matrix(data, ...) if custom_matrix is None else
custom_matrix` (features.py 514): the matrix analyze_od_flows works on;
the internal build uses the default daily period. -/
def theODMatrix (data : List Trip) (custom_matrix : Option (List ODRow)) :
    List ODRow :=
  match custom_matrix with
  | none => create_od_matrix data (some 24)
  | some m => m

/-- Translation of `analyze_od_flows` (features.py 473-529): per point of
the outer-joined index, the outflow/inflow sums and derived columns. -/
def analyze_od_flows (data : List Trip) (custom_matrix : Option (List ODRow)) :
    List FlowRow :=
  let od_matrix := theODMatrix data custom_matrix
  (flowPoints od_matrix).map (mkFlowRow od_matrix)

theorem cast_replace_zero (o : ℕ) :
    (((if o = 0 then 1 else o) : ℕ) : ℚ) = max (o : ℚ) 1 := by
  by_cases h : o = 0
  · subst h
    simp
  · rw [if_neg h]
    have h1 : (1 : ℚ) ≤ (o : ℚ) := by
      have : 1 ≤ o := Nat.one_le_iff_ne_zero.mpr h
      exact_mod_cast this
    rw [max_eq_left h1]

/-- C6: in analyze_od_flows, every summary row's flow_ratio equals inflow
divided by max(outflow, 1); in particular a point with outflow 0 gets
divisor 1 — no division-by-zero error — and its flow_ratio equals its
inflow. -/
theorem c6_flow_ratio (data : List Trip) (custom_matrix : Option (List ODRow))
    (row : FlowRow) (hrow : row ∈ analyze_od_flows data custom_matrix) :
    row.flow_ratio = (row.inflow : ℚ) / max (row.outflow : ℚ) 1
      ∧ (row.outflow = 0 → row.flow_ratio = (row.inflow : ℚ)) := by
  unfold analyze_od_flows at hrow
  obtain ⟨p, _, rfl⟩ := List.mem_map.mp hrow
  constructor
  · show (((odInflow (theODMatrix data custom_matrix) p) : ℚ) / _) = _
    rw [cast_replace_zero]
    rfl
  · intro ho
    show (((odInflow (theODMatrix data custom_matrix) p) : ℚ) / _) = _
    have ho2 : odOutflow (theODMatrix data custom_matrix) p = 0 := ho
    rw [ho2]
    norm_num
    rfl

/-- Witness for C6: a one-row custom matrix whose destination point 1 has
outflow 0. -/
theorem c6_flow_ratio_witness :
    mkFlowRow [⟨none, 0, 1, 2⟩] 1 ∈ analyze_od_flows [] (some [⟨none, 0, 1, 2⟩])
      ∧ (mkFlowRow [⟨none, 0, 1, 2⟩] 1).flow_ratio
          = ((mkFlowRow [⟨none, 0, 1, 2⟩] 1).inflow : ℚ)
            / max ((mkFlowRow [⟨none, 0, 1, 2⟩] 1).outflow : ℚ) 1
      ∧ ((mkFlowRow [⟨none, 0, 1, 2⟩] 1).outflow = 0 →
          (mkFlowRow [⟨none, 0, 1, 2⟩] 1).flow_ratio
            = ((mkFlowRow [⟨none, 0, 1, 2⟩] 1).inflow : ℚ)) := by
  have hmem : mkFlowRow [⟨none, 0, 1, 2⟩] 1
      ∈ analyze_od_flows [] (some [⟨none, 0, 1, 2⟩]) :=
    List.mem_map_of_mem _ (by decide)
  have hc := c6_flow_ratio [] (some [⟨none, 0, 1, 2⟩]) _ hmem
  exact ⟨hmem, hc.1, hc.2⟩

/-- C7: create_od_matrix with period=None has exactly one row per distinct
(origin, destination) pair present in the data — the pair column is
duplicate-free, the row count is the number of distinct pairs, a pair
appears iff some trip realises it — and each row's count is the total
number of trips of that pair over the whole dataset, hence positive: pairs
with zero trips are not materialized. -/
theorem c7_od_total (data : List Trip) :
    ((create_od_matrix data none).map
        (fun e => (e.start_location, e.end_location))).Nodup
      ∧ (create_od_matrix data none).length = (data.map tripPair).dedup.length
      ∧ (∀ e ∈ create_od_matrix data none,
          e.count = data.countP
            (fun t => decide (tripPair t = (e.start_location, e.end_location)))
            ∧ 0 < e.count)
      ∧ (∀ od : ℕ × ℕ, od ∈ data.map tripPair
          ↔ od ∈ (create_od_matrix data none).map
              (fun e => (e.start_location, e.end_location))) := by
  have hmap : (create_od_matrix data none).map
      (fun e => (e.start_location, e.end_location))
      = List.insertionSort pairLe (data.map tripPair).dedup := by
    unfold create_od_matrix
    rw [List.map_map]
    exact List.map_id _
  refine ⟨?_, ?_, ?_, ?_⟩
  · rw [hmap]
    exact (List.perm_insertionSort pairLe _).symm.nodup (List.nodup_dedup _)
  · unfold create_od_matrix
    rw [List.length_map]
    exact (List.perm_insertionSort pairLe _).length_eq
  · intro e he
    unfold create_od_matrix at he
    obtain ⟨k, hk, rfl⟩ := List.mem_map.mp he
    rw [List.mem_insertionSort, List.mem_dedup] at hk
    constructor
    · rfl
    · rw [List.countP_pos_iff]
      obtain ⟨t, ht, htk⟩ := List.mem_map.mp hk
      exact ⟨t, ht, by simp [htk]⟩
  · intro od
    rw [hmap, List.mem_insertionSort, List.mem_dedup]

/-- Witness for C7: the per-row conjunct instantiated on a one-trip table. -/
theorem c7_od_total_witness :
    (⟨none, 5, 7, 1⟩ : ODRow) ∈ create_od_matrix [⟨0, 1, 5, 7⟩] none
      ∧ ((⟨none, 5, 7, 1⟩ : ODRow).count
          = ([⟨0, 1, 5, 7⟩] : List Trip).countP
            (fun t => decide (tripPair t = ((⟨none, 5, 7, 1⟩ : ODRow).start_location,
              (⟨none, 5, 7, 1⟩ : ODRow).end_location)))
          ∧ 0 < (⟨none, 5, 7, 1⟩ : ODRow).count) :=
  ⟨by decide, (c7_od_total [⟨0, 1, 5, 7⟩]).2.2.1 ⟨none, 5, 7, 1⟩ (by decide)⟩

/-- C8: analyze_od_flows joins outflow and inflow with an outer join on the
point id — every point that appears in the OD matrix as an origin or as a
destination gets a summary row carrying its outflow and inflow sums, and a
point appearing on one side only gets 0 for the missing side rather than no
row. -/
theorem c8_outer_join (m : List ODRow) (p : ℕ)
    (h : ∃ e ∈ m, e.start_location = p ∨ e.end_location = p) :
    ∃ row ∈ analyze_od_flows [] (some m), row.point = p
      ∧ row.outflow = odOutflow m p ∧ row.inflow = odInflow m p
      ∧ ((∀ e ∈ m, e.end_location ≠ p) → row.inflow = 0)
      ∧ ((∀ e ∈ m, e.start_location ≠ p) → row.outflow = 0) := by
  have hpts : p ∈ flowPoints m := by
    unfold flowPoints
    rw [List.mem_insertionSort, List.mem_dedup, List.mem_append]
    obtain ⟨e, he, hor⟩ := h
    rcases hor with h1 | h1
    · exact Or.inl (List.mem_map.mpr ⟨e, he, h1⟩)
    · exact Or.inr (List.mem_map.mpr ⟨e, he, h1⟩)
  refine ⟨mkFlowRow m p, List.mem_map_of_mem _ hpts, rfl, rfl, rfl, ?_, ?_⟩
  · intro hno
    show odInflow m p = 0
    unfold odInflow
    have hnil : m.filter (fun e => decide (e.end_location = p)) = [] := by
      rw [List.filter_eq_nil_iff]
      intro e he hd
      exact hno e he (of_decide_eq_true hd)
    rw [hnil]
    rfl
  · intro hno
    show odOutflow m p = 0
    unfold odOutflow
    have hnil : m.filter (fun e => decide (e.start_location = p)) = [] := by
      rw [List.filter_eq_nil_iff]
      intro e he hd
      exact hno e he (of_decide_eq_true hd)
    rw [hnil]
    rfl

/-- Witness for C8: a matrix whose only row goes from point 3 to point 4;
point 3 appears only as an origin and still gets a summary row with
inflow 0. -/
theorem c8_outer_join_witness :
    ∃ row ∈ analyze_od_flows [] (some [⟨none, 3, 4, 2⟩]), row.point = 3
      ∧ row.outflow = odOutflow [⟨none, 3, 4, 2⟩] 3
      ∧ row.inflow = odInflow [⟨none, 3, 4, 2⟩] 3
      ∧ ((∀ e ∈ [(⟨none, 3, 4, 2⟩ : ODRow)], e.end_location ≠ 3) → row.inflow = 0)
      ∧ ((∀ e ∈ [(⟨none, 3, 4, 2⟩ : ODRow)], e.start_location ≠ 3) →
          row.outflow = 0) :=
  c8_outer_join [⟨none, 3, 4, 2⟩] 3 ⟨⟨none, 3, 4, 2⟩, List.mem_cons_self _ _, Or.inl rfl⟩

theorem odKeys_nodup (data : List Trip) (w : ℤ) :
    (List.insertionSort odKeyLe (data.map (tripDayKey w)).dedup).Nodup :=
  (List.perm_insertionSort odKeyLe _).symm.nodup (List.nodup_dedup _)

theorem pairKeys_nodup (data : List Trip) :
    (List.insertionSort pairLe (data.map tripPair).dedup).Nodup :=
  (List.perm_insertionSort pairLe _).symm.nodup (List.nodup_dedup _)

theorem mem_odKeys (data : List Trip) (w : ℤ) (k : ℤ × ℕ × ℕ) :
    k ∈ List.insertionSort odKeyLe (data.map (tripDayKey w)).dedup
      ↔ ∃ t ∈ data, tripDayKey w t = k := by
  rw [List.mem_insertionSort, List.mem_dedup, List.mem_map]

theorem mem_pairKeys (data : List Trip) (k : ℕ × ℕ) :
    k ∈ List.insertionSort pairLe (data.map tripPair).dedup
      ↔ ∃ t ∈ data, tripPair t = k := by
  rw [List.mem_insertionSort, List.mem_dedup, List.mem_map]

/-- Per-origin outflow over a daily OD matrix counts exactly the trips
departing from the point: splitting by period does not change the sum. -/
theorem odOutflow_daily (data : List Trip) (w : ℤ) (p : ℕ) :
    odOutflow (create_od_matrix data (some w)) p
      = data.countP (fun t => decide (t.start_location = p)) := by
  unfold odOutflow create_od_matrix
  rw [List.filter_map, List.map_map]
  refine sum_countP_keys (tripDayKey w) (fun t => decide (t.start_location = p))
    _ ((odKeys_nodup data w).filter _) data ?_
  intro t ht
  constructor
  · intro hp
    refine List.mem_filter.mpr ⟨(mem_odKeys data w _).mpr ⟨t, ht, rfl⟩, ?_⟩
    exact hp
  · intro hmem
    exact (List.mem_filter.mp hmem).2

/-- Per-destination inflow over a daily OD matrix counts exactly the trips
arriving at the point. -/
theorem odInflow_daily (data : List Trip) (w : ℤ) (p : ℕ) :
    odInflow (create_od_matrix data (some w)) p
      = data.countP (fun t => decide (t.end_location = p)) := by
  unfold odInflow create_od_matrix
  rw [List.filter_map, List.map_map]
  refine sum_countP_keys (tripDayKey w) (fun t => decide (t.end_location = p))
    _ ((odKeys_nodup data w).filter _) data ?_
  intro t ht
  constructor
  · intro hp
    refine List.mem_filter.mpr ⟨(mem_odKeys data w _).mpr ⟨t, ht, rfl⟩, ?_⟩
    exact hp
  · intro hmem
    exact (List.mem_filter.mp hmem).2

/-- Per-origin outflow over the no-period OD matrix counts exactly the
trips departing from the point. -/
theorem odOutflow_total (data : List Trip) (p : ℕ) :
    odOutflow (create_od_matrix data none) p
      = data.countP (fun t => decide (t.start_location = p)) := by
  unfold odOutflow create_od_matrix
  rw [List.filter_map, List.map_map]
  refine sum_countP_keys tripPair (fun t => decide (t.start_location = p))
    _ ((pairKeys_nodup data).filter _) data ?_
  intro t ht
  constructor
  · intro hp
    refine List.mem_filter.mpr ⟨(mem_pairKeys data _).mpr ⟨t, ht, rfl⟩, ?_⟩
    exact hp
  · intro hmem
    exact (List.mem_filter.mp hmem).2

/-- Per-destination inflow over the no-period OD matrix counts exactly the
trips arriving at the point. -/
theorem odInflow_total (data : List Trip) (p : ℕ) :
    odInflow (create_od_matrix data none) p
      = data.countP (fun t => decide (t.end_location = p)) := by
  unfold odInflow create_od_matrix
  rw [List.filter_map, List.map_map]
  refine sum_countP_keys tripPair (fun t => decide (t.end_location = p))
    _ ((pairKeys_nodup data).filter _) data ?_
  intro t ht
  constructor
  · intro hp
    refine List.mem_filter.mpr ⟨(mem_pairKeys data _).mpr ⟨t, ht, rfl⟩, ?_⟩
    exact hp
  · intro hmem
    exact (List.mem_filter.mp hmem).2

theorem sort_nat_strict (l : List ℕ) (hnd : l.Nodup) :
    (List.insertionSort (· ≤ ·) l).Pairwise (· < ·) := by
  have hsorted : (List.insertionSort ((· ≤ ·) : ℕ → ℕ → Prop) l).Pairwise (· ≤ ·) :=
    List.sorted_insertionSort (· ≤ ·) l
  have hndS : (List.insertionSort ((· ≤ ·) : ℕ → ℕ → Prop) l).Nodup :=
    (List.perm_insertionSort (· ≤ ·) l).symm.nodup hnd
  exact (hsorted.and hndS).imp (fun h => lt_of_le_of_ne h.1 h.2)

theorem sortDedupNat_ext (l1 l2 : List ℕ) (hm : ∀ x, x ∈ l1 ↔ x ∈ l2) :
    List.insertionSort (· ≤ ·) l1.dedup = List.insertionSort (· ≤ ·) l2.dedup := by
  have hp : l1.dedup.Perm l2.dedup := by
    rw [List.perm_ext_iff_of_nodup (List.nodup_dedup l1) (List.nodup_dedup l2)]
    intro a
    rw [List.mem_dedup, List.mem_dedup]
    exact hm a
  refine eq_of_perm_of_pairwise_strict (fun a b : ℕ => by omega) _ _ ?_
    (sort_nat_strict _ (List.nodup_dedup l1)) (sort_nat_strict _ (List.nodup_dedup l2))
  exact ((List.perm_insertionSort (· ≤ ·) _).trans hp).trans
    (List.perm_insertionSort (· ≤ ·) _).symm

/-- A point is in the matrix's origin column exactly when some trip departs
from it — for the daily matrix. -/
theorem exists_origin_daily (data : List Trip) (w : ℤ) (x : ℕ) :
    (∃ e ∈ create_od_matrix data (some w), e.start_location = x)
      ↔ ∃ t ∈ data, t.start_location = x := by
  unfold create_od_matrix
  constructor
  · rintro ⟨e, he, hex⟩
    obtain ⟨k, hk, rfl⟩ := List.mem_map.mp he
    obtain ⟨t, ht, rfl⟩ := (mem_odKeys data w k).mp hk
    exact ⟨t, ht, hex⟩
  · rintro ⟨t, ht, hx⟩
    refine ⟨⟨some (bucket w t.start_date), t.start_location, t.end_location,
      data.countP (fun s => decide (tripDayKey w s = tripDayKey w t))⟩, ?_, hx⟩
    exact List.mem_map.mpr ⟨tripDayKey w t, (mem_odKeys data w _).mpr ⟨t, ht, rfl⟩, rfl⟩

theorem exists_dest_daily (data : List Trip) (w : ℤ) (x : ℕ) :
    (∃ e ∈ create_od_matrix data (some w), e.end_location = x)
      ↔ ∃ t ∈ data, t.end_location = x := by
  unfold create_od_matrix
  constructor
  · rintro ⟨e, he, hex⟩
    obtain ⟨k, hk, rfl⟩ := List.mem_map.mp he
    obtain ⟨t, ht, rfl⟩ := (mem_odKeys data w k).mp hk
    exact ⟨t, ht, hex⟩
  · rintro ⟨t, ht, hx⟩
    refine ⟨⟨some (bucket w t.start_date), t.start_location, t.end_location,
      data.countP (fun s => decide (tripDayKey w s = tripDayKey w t))⟩, ?_, hx⟩
    exact List.mem_map.mpr ⟨tripDayKey w t, (mem_odKeys data w _).mpr ⟨t, ht, rfl⟩, rfl⟩

theorem exists_origin_total (data : List Trip) (x : ℕ) :
    (∃ e ∈ create_od_matrix data none, e.start_location = x)
      ↔ ∃ t ∈ data, t.start_location = x := by
  unfold create_od_matrix
  constructor
  · rintro ⟨e, he, hex⟩
    obtain ⟨k, hk, rfl⟩ := List.mem_map.mp he
    obtain ⟨t, ht, rfl⟩ := (mem_pairKeys data k).mp hk
    exact ⟨t, ht, hex⟩
  · rintro ⟨t, ht, hx⟩
    refine ⟨⟨none, t.start_location, t.end_location,
      data.countP (fun s => decide (tripPair s = tripPair t))⟩, ?_, hx⟩
    exact List.mem_map.mpr ⟨tripPair t, (mem_pairKeys data _).mpr ⟨t, ht, rfl⟩, rfl⟩

theorem exists_dest_total (data : List Trip) (x : ℕ) :
    (∃ e ∈ create_od_matrix data none, e.end_location = x)
      ↔ ∃ t ∈ data, t.end_location = x := by
  unfold create_od_matrix
  constructor
  · rintro ⟨e, he, hex⟩
    obtain ⟨k, hk, rfl⟩ := List.mem_map.mp he
    obtain ⟨t, ht, rfl⟩ := (mem_pairKeys data k).mp hk
    exact ⟨t, ht, hex⟩
  · rintro ⟨t, ht, hx⟩
    refine ⟨⟨none, t.start_location, t.end_location,
      data.countP (fun s => decide (tripPair s = tripPair t))⟩, ?_, hx⟩
    exact List.mem_map.mpr ⟨tripPair t, (mem_pairKeys data _).mpr ⟨t, ht, rfl⟩, rfl⟩

/-- The outer-join point index is the same whether the matrix was split by
day or aggregated over the whole dataset. -/
theorem flowPoints_eq (data : List Trip) :
    flowPoints (create_od_matrix data none)
      = flowPoints (create_od_matrix data (some 24)) := by
  unfold flowPoints
  refine sortDedupNat_ext _ _ ?_
  intro x
  rw [List.mem_append, List.mem_append, List.mem_map, List.mem_map,
    List.mem_map, List.mem_map]
  constructor
  · rintro (h | h)
    · exact Or.inl ((exists_origin_daily data 24 x).mpr
        ((exists_origin_total data x).mp h))
    · exact Or.inr ((exists_dest_daily data 24 x).mpr
        ((exists_dest_total data x).mp h))
  · rintro (h | h)
    · exact Or.inl ((exists_origin_total data x).mpr
        ((exists_origin_daily data 24 x).mp h))
    · exact Or.inr ((exists_dest_total data x).mpr
        ((exists_dest_daily data 24 x).mp h))

/-- C10: the point summary of analyze_od_flows does not depend on the OD
matrix's time bucketing — passing the whole-dataset matrix as the custom
matrix gives exactly the rows the default call (which builds a daily
matrix internally) produces, because per-point count sums are invariant to
splitting the matrix by period. -/
theorem c10_period_invariance (data : List Trip) :
    analyze_od_flows data (some (create_od_matrix data none))
      = analyze_od_flows data none := by
  show (flowPoints (create_od_matrix data none)).map
      (mkFlowRow (create_od_matrix data none))
    = (flowPoints (create_od_matrix data (some 24))).map
      (mkFlowRow (create_od_matrix data (some 24)))
  rw [flowPoints_eq data]
  refine List.map_congr_left ?_
  intro p _
  unfold mkFlowRow
  rw [odOutflow_total, odOutflow_daily, odInflow_total, odInflow_daily]

/-! ### Frame effect of the Deficit Estimator (C9)

To talk about mutation and aliasing, the same pipeline is modelled once
more in heap-passing style: frames live on a heap, references are indices,
pandas column assignment overwrites the frame its reference points to,
`copy()` and `sort_values` allocate fresh frames. -/

/-- A mutable `net_long` frame row: the three raw columns plus the two
derived columns, absent (`none`) until the corresponding column assignment
has run. -/
structure PRow where
  time : ℤ
  point : ℕ
  net_balance : ℤ
  day_6am : Option ℤ
  cumulative : Option ℤ
deriving DecidableEq, Repr

/-- A pandas frame as mutable storage. -/
abbrev Frame := List PRow

/-- The heap of live frames; a reference is an index into it. -/
abbrev Heap := List Frame

/-- Allocate a fresh frame, returning the heap and the new reference. -/
def heapAlloc (h : Heap) (f : Frame) : Heap × ℕ := (h ++ [f], h.length)

/-- Read the frame a reference points to. -/
def heapGet (h : Heap) (r : ℕ) : Frame := h.getD r []

/-- Overwrite the frame a reference points to (in-place mutation). -/
def heapSet (h : Heap) (r : ℕ) (f : Frame) : Heap := h.set r f

/-- `net_long['day_6am'] = (net_long['time'] - pd.Timedelta(hours=6)).dt.date`
on a mutable frame: sets the derived column on every row. -/
def frameAssignDay (f : Frame) : Frame :=
  f.map (fun r => { r with day_6am := some (day6am r.time) })

/-- The (point, day_6am) key of a mutable row; the column is always present
when the key is read (day assignment has run), so `getD` never falls back. -/
def pKey (r : PRow) : ℕ × ℤ := (r.point, r.day_6am.getD 0)

/-- The full (point, day_6am, time) sort key of a mutable row. -/
def pKey3 (r : PRow) : ℕ × ℤ × ℤ := (r.point, r.day_6am.getD 0, r.time)

/-- `sort_values(['point', 'day_6am', 'time'])` comparison on mutable rows. -/
def pRowLe (a b : PRow) : Prop := key3Le (pKey3 a) (pKey3 b)

instance : DecidableRel pRowLe := fun a b => by unfold pRowLe; exact inferInstance

instance : IsTotal PRow pRowLe :=
  ⟨fun a b => IsTotal.total (pKey3 a) (pKey3 b)⟩

instance : IsTrans PRow pRowLe :=
  ⟨fun a b c h1 h2 => IsTrans.trans (pKey3 a) (pKey3 b) (pKey3 c) h1 h2⟩

/-- `sort_values` returns a new, sorted frame. -/
def frameSortValues (f : Frame) : Frame := List.insertionSort pRowLe f

def pSumNet (l : List PRow) : ℤ := (l.map PRow.net_balance).sum

/-- The cumulative-column assignment on a mutable frame (same running-sum
semantics as `withCumulative`). -/
def frameWithCum : Frame → Frame → Frame
  | _, [] => []
  | pre, r :: rest =>
    { r with cumulative := some (pSumNet ((pre ++ [r]).filter
        (fun x => decide (pKey x = pKey r)))) } :: frameWithCum (pre ++ [r]) rest

/-- `groupby(['point','day_6am'])['cumulative'].min().reset_index()` plus
the optimal_count column, read off a mutable frame. -/
def frameDailyMin (f : Frame) : List DeficitRecord :=
  (List.insertionSort key2Le (f.map pKey).dedup).map (fun k =>
    let m := minimumD ((f.filter (fun r => decide (pKey r = k))).map
      (fun r => r.cumulative.getD 0))
    ⟨k.1, k.2, m, if m < 0 then |m| else 0⟩)

/-- Heap-passing translation of `calculate_optimal_scooters` (features.py
373-386) with pandas aliasing explicit: the caller holds reference `r0` to
the input frame; `net_long.copy()` allocates a fresh frame and rebinds the
local name to it, the two column assignments mutate in place the frame the
local name points to, and `sort_values` returns a new frame. -/
def calculate_optimal_scooters_frame (h0 : Heap) (r0 : ℕ) :
    Heap × List DeficitRecord :=
  -- net_long = net_long.copy()
  let a1 := heapAlloc h0 (heapGet h0 r0)
  let h1 := a1.1
  let r1 := a1.2
  -- net_long['day_6am'] = (net_long['time'] - pd.Timedelta(hours=6)).dt.date
  let h2 := heapSet h1 r1 (frameAssignDay (heapGet h1 r1))
  -- net_long = net_long.sort_values(['point', 'day_6am', 'time'])
  let a2 := heapAlloc h2 (frameSortValues (heapGet h2 r1))
  let h3 := a2.1
  let r2 := a2.2
  -- net_long['cumulative'] = net_long.groupby(['point','day_6am'])['net_balance'].cumsum()
  let h4 := heapSet h3 r2 (frameWithCum [] (heapGet h3 r2))
  -- daily_min = net_long.groupby(...)['cumulative'].min()...; return daily_min
  (h4, frameDailyMin (heapGet h4 r2))

/-- C9: calculate_optimal_scooters leaves the caller's input frame
untouched — after the call, the frame the caller's reference points to is
exactly the frame it pointed to before, with the same rows, row order and
columns: the function copies the frame first, and every mutation (the
day_6am and cumulative column assignments) targets the copy or the fresh
frame sort_values returned, never the caller's. -/
theorem c9_input_frame_unchanged (h0 : Heap) (r0 : ℕ) (hr : r0 < h0.length) :
    heapGet (calculate_optimal_scooters_frame h0 r0).1 r0 = heapGet h0 r0 := by
  unfold calculate_optimal_scooters_frame heapAlloc heapSet
  simp only
  unfold heapGet
  rw [List.getD_eq_getElem?_getD, List.getD_eq_getElem?_getD]
  congr 1
  rw [List.getElem?_set_ne (by simp; omega)]
  rw [List.getElem?_append_left (by simp; omega)]
  rw [List.getElem?_set_ne (by omega)]
  rw [List.getElem?_append_left (by omega)]

/-- Witness for C9: a one-frame heap holding a one-row net balance table. -/
theorem c9_input_frame_unchanged_witness :
    0 < ([[(⟨6, 1, 5, none, none⟩ : PRow)]] : Heap).length
      ∧ heapGet (calculate_optimal_scooters_frame
            [[(⟨6, 1, 5, none, none⟩ : PRow)]] 0).1 0
          = heapGet ([[(⟨6, 1, 5, none, none⟩ : PRow)]] : Heap) 0 :=
  ⟨by decide, c9_input_frame_unchanged [[⟨6, 1, 5, none, none⟩]] 0 (by decide)⟩

end Scooter
